import Mathlib

/-!
Verification of the task-net assemble tool (scripts/assemble/main.go).

Strings are modelled as `List Char` (the Go code treats them as byte
sequences; all literals involved are ASCII, where bytes and characters
coincide).  Each definition is a direct translation of the Go function of
the same name; doc comments record the source location and any modelling
assumption.
-/

namespace TaskNet

/-- Model of strings.Contains: `sub` occurs as a contiguous substring of
`s` (at any position, including the empty substring everywhere). -/
def containsSub (s sub : List Char) : Bool :=
  match s with
  | [] => sub.isEmpty
  | _ :: rest => sub.isPrefixOf s || containsSub rest sub

/-- ASCII digit test, as in the Go source: `version[0] < '0' || version[0] > '9'`. -/
def isDigitGo (c : Char) : Bool :=
  48 ≤ c.toNat && c.toNat ≤ 57

def nightlyLit : List Char := "nightly".data

def previewLit : List Char := "preview".data

def alphaLit : List Char := "alpha".data

def betaLit : List Char := "beta".data

def rcLit : List Char := "rc".data

/-- Translation of isNormalVersion (main.go lines 116-131): a version is
normal when it contains none of the blocklist substrings and starts with
an ASCII digit (the empty string is not normal). -/
def isNormalVersion (version : List Char) : Bool :=
  if containsSub version nightlyLit || containsSub version previewLit ||
      containsSub version alphaLit || containsSub version betaLit ||
      containsSub version rcLit then
    false
  else
    match version with
    | [] => false
    | c :: _ => isDigitGo c

/-- Model of strings.TrimPrefix(version, "v"): removes one leading `v`
when present. -/
def trimLeadingV (version : List Char) : List Char :=
  match version with
  | 'v' :: rest => rest
  | _ => version

/-- Model of strings.Split(s, "."): split on every dot; the empty string
yields one empty part, as in Go. -/
def splitDots : List Char → List (List Char)
  | [] => [[]]
  | c :: rest =>
    if c = '.' then [] :: splitDots rest
    else
      match splitDots rest with
      | [] => [[c]]
      | p :: ps => (c :: p) :: ps

def zeroLit : List Char := "0".data

/-- The padding loop of normalizeVersion: append "0" parts until there are
at least three. -/
def padThree (parts : List (List Char)) : List (List Char) :=
  parts ++ List.replicate (3 - parts.length) zeroLit

/-- Model of strings.Join(parts, "."). -/
def joinDots : List (List Char) → List Char
  | [] => []
  | [p] => p
  | p :: ps => p ++ '.' :: joinDots ps

/-- Translation of normalizeVersion (main.go lines 133-146): strip one
leading `v`, split on dots, right-pad with "0" to three parts, keep only
the first three, and re-join with dots.  Note that the retained parts are
kept textually: a non-numeric part such as "0-rc1" stays in the result. -/
def normalizeVersion (version : List Char) : List Char :=
  joinDots ((padThree (splitDots (trimLeadingV version))).take 3)

/-- Digits of an ASCII decimal numeral, most significant first. -/
def digitsToNat : List Char → Nat → Nat
  | [], acc => acc
  | c :: cs, acc => digitsToNat cs (acc * 10 + (c.toNat - 48))

def allDigits (cs : List Char) : Bool :=
  cs.all isDigitGo

/-- Model of strconv.Atoi as used in compareVersions, where the error is
discarded: an optional sign followed by one or more digits parses to that
integer, anything else (including the empty string) yields 0.  Range
overflow of 64-bit int is not modelled; the version components at stake
are far below that bound. -/
def atoiGo (s : List Char) : Int :=
  match s with
  | [] => 0
  | '+' :: rest => if rest ≠ [] && allDigits rest then (digitsToNat rest 0 : Int) else 0
  | '-' :: rest => if rest ≠ [] && allDigits rest then -(digitsToNat rest 0 : Int) else 0
  | _ => if allDigits s then (digitsToNat s 0 : Int) else 0

/-- strings.Split of the normalized form, as computed at the top of
compareVersions. -/
def versionParts (v : List Char) : List (List Char) :=
  splitDots (normalizeVersion v)

/-- The integer value of component `i` of the normalized version, with the
Atoi error discarded (main.go lines 153-154).  `versionParts` always has
exactly three entries, so the default never fires for `i < 3`. -/
def nthPart (v : List Char) (i : Nat) : Int :=
  atoiGo ((versionParts v).getD i [])

/-- Translation of compareVersions (main.go lines 148-163): the three-step
loop unrolled.  Returns -1, 0 or 1. -/
def compareVersions (v1 v2 : List Char) : Int :=
  if nthPart v1 0 < nthPart v2 0 then -1
  else if nthPart v2 0 < nthPart v1 0 then 1
  else if nthPart v1 1 < nthPart v2 1 then -1
  else if nthPart v2 1 < nthPart v1 1 then 1
  else if nthPart v1 2 < nthPart v2 2 then -1
  else if nthPart v2 2 < nthPart v1 2 then 1
  else 0

/-- The sort order used by sortVersions: `a` may precede `b` when the
comparator does not place `a` strictly below `b`. -/
def versionGE (a b : List Char) : Prop :=
  0 ≤ compareVersions a b

instance : DecidableRel versionGE :=
  fun a b => inferInstanceAs (Decidable (0 ≤ compareVersions a b))

/-- Model of sortVersions (main.go lines 165-174).  The Go code copies the
slice and calls sort.Slice with less(i, j) = compareVersions(i, j) > 0,
i.e. it sorts into descending comparator order.  For slices of at most 12
elements sort.Slice runs insertion sort, whose output is the unique
descending reordering that keeps comparator-equal elements in their
original relative order; `List.insertionSort versionGE` computes exactly
that order.  For longer slices sort.Slice still produces a permutation
sorted by the comparator, but the relative order of comparator-equal
elements is not guaranteed by the library; only the permutation and
sortedness facts of this model are relied on by the theorems below. -/
def sortVersions (versions : List (List Char)) : List (List Char) :=
  List.insertionSort versionGE versions

/-- The comparator negates under argument swap (used for claim C9 and for
the totality of the sort order). -/
theorem compareVersions_antisym (a b : List Char) :
    compareVersions a b = -compareVersions b a := by
  unfold compareVersions
  split_ifs <;> omega

theorem compareVersions_self (v : List Char) : compareVersions v v = 0 := by
  unfold compareVersions
  split_ifs <;> omega

instance instTotalVersionGE : IsTotal (List Char) versionGE := by
  constructor
  intro a b
  have h := compareVersions_antisym a b
  unfold versionGE
  omega

theorem compareVersions_nonneg_iff (a b : List Char) :
    0 ≤ compareVersions a b ↔
      nthPart b 0 < nthPart a 0 ∨
        (nthPart a 0 = nthPart b 0 ∧
          (nthPart b 1 < nthPart a 1 ∨
            (nthPart a 1 = nthPart b 1 ∧ nthPart b 2 ≤ nthPart a 2))) := by
  unfold compareVersions
  split_ifs <;> omega

instance instTransVersionGE : IsTrans (List Char) versionGE := by
  constructor
  intro a b c hab hbc
  unfold versionGE at *
  rw [compareVersions_nonneg_iff] at *
  omega

theorem sortVersions_sorted (l : List (List Char)) : List.Sorted versionGE (sortVersions l) :=
  List.sorted_insertionSort versionGE l

theorem sortVersions_perm (l : List (List Char)) : List.Perm (sortVersions l) l :=
  List.perm_insertionSort versionGE l

theorem splitDots_ne_nil : ∀ s : List Char, splitDots s ≠ []
  | [] => by simp [splitDots]
  | c :: rest => by
    simp only [splitDots]
    split_ifs
    · simp
    · match h : splitDots rest with
      | [] => simp
      | p :: ps => simp

theorem splitDots_parts_dotFree : ∀ s : List Char, ∀ p ∈ splitDots s, '.' ∉ p := by
  intro s
  induction s with
  | nil => simp [splitDots]
  | cons c rest ih =>
    by_cases hc : c = '.'
    · simp only [splitDots, if_pos hc]
      intro p hp
      rcases List.mem_cons.mp hp with h1 | h2
      · subst h1
        simp
      · exact ih p h2
    · simp only [splitDots, if_neg hc]
      cases hsp : splitDots rest with
      | nil => exact absurd hsp (splitDots_ne_nil rest)
      | cons q qs =>
        intro p hp
        rcases List.mem_cons.mp hp with h1 | h2
        · subst h1
          intro hmem
          rcases List.mem_cons.mp hmem with h3 | h4
          · exact hc h3.symm
          · refine ih q ?_ h4
            rw [hsp]
            exact List.mem_cons_self q qs
        · refine ih p ?_
          rw [hsp]
          exact List.mem_cons_of_mem q h2

theorem splitDots_of_dotFree : ∀ s : List Char, '.' ∉ s → splitDots s = [s]
  | [], _ => rfl
  | c :: rest, h => by
    simp only [splitDots]
    have hc : ¬ c = '.' := fun hh => h (by simp [hh])
    rw [if_neg hc, splitDots_of_dotFree rest (fun hh => h (by simp [hh]))]

theorem splitDots_append_dot :
    ∀ p t : List Char, '.' ∉ p → splitDots (p ++ '.' :: t) = p :: splitDots t
  | [], t, _ => by simp [splitDots]
  | c :: p, t, h => by
    have hc : ¬ c = '.' := fun hh => h (by simp [hh])
    have ih := splitDots_append_dot p t (fun hh => h (by simp [hh]))
    show splitDots (c :: (p ++ '.' :: t)) = (c :: p) :: splitDots t
    simp only [splitDots]
    rw [if_neg hc, ih]

theorem splitDots_joinDots :
    ∀ L : List (List Char), L ≠ [] → (∀ p ∈ L, '.' ∉ p) → splitDots (joinDots L) = L
  | [], h, _ => absurd rfl h
  | [p], _, hdot => by
    simp only [joinDots]
    exact splitDots_of_dotFree p (hdot p (by simp))
  | p :: q :: ps, _, hdot => by
    simp only [joinDots]
    rw [splitDots_append_dot p _ (hdot p (by simp)),
      splitDots_joinDots (q :: ps) (by simp) (fun x hx => hdot x (by simp [hx]))]

theorem padThree_length_ge (parts : List (List Char)) : 3 ≤ (padThree parts).length := by
  simp [padThree]
  omega

theorem versionParts_eq (v : List Char) :
    versionParts v = (padThree (splitDots (trimLeadingV v))).take 3 := by
  unfold versionParts normalizeVersion
  apply splitDots_joinDots
  · intro h
    rw [List.take_eq_nil_iff] at h
    rcases h with h | h
    · omega
    · have := padThree_length_ge (splitDots (trimLeadingV v))
      rw [h] at this
      simp at this
  · intro p hp
    have hp2 := List.mem_of_mem_take hp
    unfold padThree at hp2
    rcases List.mem_append.mp hp2 with h1 | h2
    · exact splitDots_parts_dotFree _ p h1
    · have := List.eq_of_mem_replicate h2
      subst this
      simp [zeroLit]

theorem versionParts_length (v : List Char) : (versionParts v).length = 3 := by
  rw [versionParts_eq, List.length_take]
  have := padThree_length_ge (splitDots (trimLeadingV v))
  omega

def hyphenLit : List Char := "-".data

/-- The tag-to-version stage of fetchTaskVersions (main.go lines 55-62):
strip a leading `v` from each tag and keep only normal versions. -/
def taskVersionsOfTags (tags : List (List Char)) : List (List Char) :=
  (tags.map trimLeadingV).filter isNormalVersion

/-- The filtering stage of fetchNuGetVersions (main.go lines 106-111):
keep normal versions that contain no hyphen. -/
def nugetNormalFilter (versions : List (List Char)) : List (List Char) :=
  versions.filter (fun v => isNormalVersion v && !(containsSub v hyphenLit))

/-- The diff of the compare command Action (main.go lines 442-455): keep
the task versions whose normalized form is not in the set of normalized
NuGet versions (the Go map-as-set membership test becomes a list
membership test on the normalized forms). -/
def missingFromNuGet (taskVersions nugetVersions : List (List Char)) : List (List Char) :=
  taskVersions.filter
    (fun v => !((nugetVersions.map normalizeVersion).contains (normalizeVersion v)))

/-- The compare command output (main.go lines 442-462): the missing task
versions, sorted descending; one is printed per line. -/
def compareTaskOnly (taskVersions nugetVersions : List (List Char)) : List (List Char) :=
  sortVersions (missingFromNuGet taskVersions nugetVersions)

/-- The full compare pipeline on already-fetched raw data: upstream tags
go through the fetchTaskVersions filter, registry versions through the
fetchNuGetVersions filter, then the diff and the sort. -/
def comparePipeline (tags nugetRaw : List (List Char)) : List (List Char) :=
  compareTaskOnly (taskVersionsOfTags tags) (nugetNormalFilter nugetRaw)

def exTagA : List Char := "v3.44.0".data

def exTagB : List Char := "v3.43.0".data

def exTagC : List Char := "v3.43.0-rc1".data

def exReg : List Char := "3.43.0".data

def exOut : List Char := "3.44.0".data

theorem contains_norm_eq_decide (nuget : List (List Char)) (v : List Char) :
    (!((nuget.map normalizeVersion).contains (normalizeVersion v)))
      = decide (∀ w ∈ nuget, normalizeVersion w ≠ normalizeVersion v) := by
  simp only [List.contains, List.elem_eq_mem, ← decide_not, decide_eq_decide, List.mem_map]
  push_neg
  constructor
  · intro h w hw
    exact h w hw
  · intro h w hw
    exact h w hw

/-- Claim C1: the compare pipeline outputs exactly those upstream version
strings whose normalized form is not the normalized form of any registry
version, sorted descending by the version comparator; on the spec example
(upstream tags v3.44.0, v3.43.0, v3.43.0-rc1 against registry 3.43.0) the
output is exactly the single entry 3.44.0. -/
theorem claim_C1_compare_pipeline :
    (∀ task nuget : List (List Char),
        List.Perm (compareTaskOnly task nuget)
          (task.filter
            (fun v => decide (∀ w ∈ nuget, normalizeVersion w ≠ normalizeVersion v))) ∧
        List.Sorted versionGE (compareTaskOnly task nuget)) ∧
    comparePipeline [exTagA, exTagB, exTagC] [exReg] = [exOut] := by
  constructor
  · intro task nuget
    constructor
    · have h1 : List.Perm (compareTaskOnly task nuget) (missingFromNuGet task nuget) :=
        List.perm_insertionSort versionGE _
      have h2 : missingFromNuGet task nuget
          = task.filter
              (fun v => decide (∀ w ∈ nuget, normalizeVersion w ≠ normalizeVersion v)) := by
        unfold missingFromNuGet
        exact List.filter_congr (fun v _ => contains_norm_eq_decide nuget v)
      rw [h2] at h1
      exact h1
    · exact List.sorted_insertionSort versionGE _
  · decide

def c6Input : List Char := "1.2.abc".data

def c6SegTxt : List Char := "abc".data

def c6Pair : List Char := "1.2".data

/-- Claim C6 counterexample: for the input 1.2.abc the retained segment
abc is non-numeric, yet it appears verbatim in the normalized output (the
output is the input unchanged), contradicting the claim that non-numeric
retained segments are dropped from the result. -/
theorem claim_C6_counterexample :
    c6SegTxt ∈ versionParts c6Input ∧ allDigits c6SegTxt = false ∧
      normalizeVersion c6Input = c6Input ∧
      containsSub (normalizeVersion c6Input) c6SegTxt = true := by
  decide

/-- Claim C6 (amended): normalization is a pure function that strips one
leading v, splits on dots, right-pads with "0" to three components and
truncates beyond the third; the retained segments are kept textually
(non-numeric segments included, never erring), and a non-numeric segment
is treated as zero only when the comparator parses it. -/
theorem claim_C6_normalize_shape :
    (∀ v : List Char, versionParts v = (padThree (splitDots (trimLeadingV v))).take 3) ∧
    (∀ v : List Char, (versionParts v).length = 3) ∧
    (∀ s : List Char, trimLeadingV ('v' :: s) = s) ∧
    normalizeVersion c6Input = c6Input ∧
    compareVersions c6Input c6Pair = 0 := by
  exact ⟨versionParts_eq, versionParts_length, fun s => rfl, by decide, by decide⟩

def startsWithDigit (v : List Char) : Bool :=
  match v with
  | [] => false
  | c :: _ => isDigitGo c

/-- The Prerelease classification exactly as worded in the spec, stated
independently of the code predicate so the two can be compared. -/
def specPrerelease (v : List Char) : Prop :=
  containsSub v nightlyLit = true ∨ containsSub v previewLit = true ∨
    containsSub v alphaLit = true ∨ containsSub v betaLit = true ∨
    containsSub v rcLit = true ∨ startsWithDigit v = false

def ex123 : List Char := "1.2.3".data

def ex123rc : List Char := "1.2.3-rc1".data

def exNightly : List Char := "nightly".data

def exAbc : List Char := "abc".data

/-- Claim C8: a version string is classified Prerelease (that is, not a
normal version) precisely when it contains one of the blocklist
substrings nightly, preview, alpha, beta, rc, or does not start with a
digit; the four spec examples classify as stated. -/
theorem claim_C8_classification :
    (∀ v : List Char, isNormalVersion v = false ↔ specPrerelease v) ∧
    isNormalVersion ex123 = true ∧ isNormalVersion ex123rc = false ∧
    isNormalVersion exNightly = false ∧ isNormalVersion exAbc = false := by
  refine ⟨?_, by decide, by decide, by decide, by decide⟩
  intro v
  unfold isNormalVersion specPrerelease startsWithDigit
  rcases v with _ | ⟨c, rest⟩
  · simp
  · split_ifs with hb
    · simp only [Bool.or_eq_true] at hb
      constructor
      · intro _
        tauto
      · intro _
        rfl
    · simp only [Bool.or_eq_true] at hb
      push_neg at hb
      simp only [Bool.not_eq_true] at hb
      obtain ⟨⟨⟨⟨h1, h2⟩, h3⟩, h4⟩, h5⟩ := hb
      simp [h1, h2, h3, h4, h5]

/-- Claim C9: for all version strings the comparator negates under
argument swap, and comparing a version with itself yields equal. -/
theorem claim_C9_comparator_algebra :
    ∀ v1 v2 : List Char,
      compareVersions v1 v2 = -compareVersions v2 v1 ∧ compareVersions v1 v1 = 0 :=
  fun v1 v2 => ⟨compareVersions_antisym v1 v2, compareVersions_self v1⟩


def windowsLit : List Char := "windows".data

def linuxLit : List Char := "linux".data

def exeSuffix : List Char := ".exe".data

def taskLit : List Char := "task".data

def taskExeLit : List Char := "task.exe".data

def zipExt : List Char := "zip".data

def tarGzExt : List Char := "tar.gz".data

def taskPrefixLit : List Char := "task_".data

/-- Model of strings.HasSuffix. -/
def hasSuffixGo (s suf : List Char) : Bool :=
  suf.isSuffixOf s

/-- Translation of getTaskFileName (main.go lines 176-198).  Both switch
statements in the source map every handled value to itself and leave any
other value unchanged, so only the extension choice is operative:
task_PLATFORM_ARCH.zip for windows, task_PLATFORM_ARCH.tar.gz otherwise. -/
def getTaskFileName (platform arch : List Char) : List Char :=
  taskPrefixLit ++ platform ++ '_' :: arch ++
    '.' :: (if platform = windowsLit then zipExt else tarGzExt)

/-- The binary name looked up inside the extracted archive (main.go lines
357-360). -/
def taskBinaryName (platform : List Char) : List Char :=
  if platform = windowsLit then taskExeLit else taskLit

/-- The final artifact path computed by downloadTask (main.go lines
362-366).  filepath.Join(outputDir, customName) is modelled as inserting
one separator, which matches Go for a nonempty outputDir without a
trailing separator and a customName that is a clean relative path; the
claims only concern such values. -/
def destPathOf (outputDir customName platform : List Char) : List Char :=
  if platform = windowsLit ∧ hasSuffixGo customName exeSuffix = false then
    outputDir ++ '/' :: customName ++ exeSuffix
  else
    outputDir ++ '/' :: customName

/-- The final permission step of downloadTask (main.go lines 373-379): on
non-windows platforms the relocated binary is chmod-ed to octal 755; on
windows the mode produced by extraction is kept. -/
def finalArtifactMode (platform : List Char) (extractedMode : Nat) : Nat :=
  if platform = windowsLit then extractedMode else 0o755

/-- Claim C4: when the platform is windows and the custom name lacks the
.exe suffix, the final artifact path is outputDir/customName.exe; when the
platform is not windows, the path is exactly outputDir/customName with no
forced extension and the executable permission bits of the final mode are
set. -/
theorem claim_C4_artifact_naming :
    ∀ outputDir customName platform : List Char, ∀ m : Nat,
      (platform = windowsLit → hasSuffixGo customName exeSuffix = false →
        destPathOf outputDir customName platform
          = outputDir ++ '/' :: customName ++ exeSuffix) ∧
      (platform ≠ windowsLit →
        destPathOf outputDir customName platform = outputDir ++ '/' :: customName ∧
        finalArtifactMode platform m = 0o755 ∧
        finalArtifactMode platform m &&& 0o111 ≠ 0) := by
  intro outputDir customName platform m
  constructor
  · intro h1 h2
    unfold destPathOf
    rw [if_pos ⟨h1, h2⟩]
  · intro h
    refine ⟨?_, ?_, ?_⟩
    · unfold destPathOf
      rw [if_neg (fun hc => h hc.1)]
    · unfold finalArtifactMode
      rw [if_neg h]
    · unfold finalArtifactMode
      rw [if_neg h]
      decide

def exOutDir : List Char := "out".data

def exCustom : List Char := "mytool".data

/-- Witness for claim C4 at the spec example inputs: platform windows with
custom name mytool gains the .exe suffix; platform linux keeps the bare
name and the mode is octal 755 with executable bits set. -/
theorem claim_C4_artifact_naming_witness :
    destPathOf exOutDir exCustom windowsLit = exOutDir ++ '/' :: exCustom ++ exeSuffix ∧
      (destPathOf exOutDir exCustom linuxLit = exOutDir ++ '/' :: exCustom ∧
        finalArtifactMode linuxLit 420 = 0o755 ∧
        finalArtifactMode linuxLit 420 &&& 0o111 ≠ 0) :=
  ⟨(claim_C4_artifact_naming exOutDir exCustom windowsLit 420).1 rfl (by decide),
    (claim_C4_artifact_naming exOutDir exCustom linuxLit 420).2 (by decide)⟩

/-- Minimal JSON value model for the upstream release feed body. -/
inductive Json where
  | null : Json
  | bool : Bool → Json
  | num : Int → Json
  | str : List Char → Json
  | arr : List Json → Json
  | obj : List (List Char × Json) → Json

def tagNameLit : List Char := "tag_name".data

/-- Field lookup in a decoded JSON object; on duplicate keys the last
occurrence wins, as in the Go encoding/json package. -/
def lookupLast (fields : List (List Char × Json)) (key : List Char) : Option Json :=
  match fields with
  | [] => none
  | (k, v) :: rest =>
    match lookupLast rest key with
    | some w => some w
    | none => if k = key then some v else none

/-- Decoding of one TaskRelease record (a struct with the json tag
tag_name): the element must be an object; a present tag_name field must be
a string, a missing one leaves the zero value, the empty string.  Key
matching is modelled as exact; the feed uses the exact lowercase key. -/
def decodeTaskRelease : Json → Option (List Char)
  | Json.obj fields =>
    match lookupLast fields tagNameLit with
    | none => some []
    | some (Json.str s) => some s
    | some _ => none
  | _ => none

/-- Decoding of the response body into []TaskRelease: JSON null decodes to
the nil slice, an array decodes elementwise, any other shape fails. -/
def decodeReleases : Json → Option (List (List Char))
  | Json.null => some []
  | Json.arr elems => elems.mapM decodeTaskRelease
  | _ => none

/-- The observable outcome of the HTTP GET inside fetchTaskVersions:
either a transport error, or a response carrying a status code and a body
(`none` when the body is not syntactically valid JSON). -/
inductive HttpResult where
  | transportError : HttpResult
  | response : Nat → Option Json → HttpResult

inductive FetchOutcome where
  | fetchErr : FetchOutcome
  | decodeErr : FetchOutcome
  | ok : List (List Char) → FetchOutcome
deriving DecidableEq

/-- Translation of fetchTaskVersions (main.go lines 43-65) over the
abstract HTTP result: a transport error propagates immediately, a body
that does not decode as []TaskRelease yields a decode error, and otherwise
the v-stripped normal versions of the decoded tags are returned.  The
status code argument is never inspected, mirroring the source, which reads
resp.Body without checking resp.StatusCode. -/
def fetchTaskVersions : HttpResult → FetchOutcome
  | HttpResult.transportError => FetchOutcome.fetchErr
  | HttpResult.response _status body =>
    match body with
    | none => FetchOutcome.decodeErr
    | some j =>
      match decodeReleases j with
      | none => FetchOutcome.decodeErr
      | some tags => FetchOutcome.ok (taskVersionsOfTags tags)

/-- Claim C5 counterexample: a response with the non-success status 500
whose body is the empty JSON array is accepted, and fetchTaskVersions
returns a version list instead of failing, so a non-success HTTP status
does not by itself make the fetch fail. -/
theorem claim_C5_counterexample :
    fetchTaskVersions (HttpResult.response 500 (some (Json.arr []))) = FetchOutcome.ok []
      ∧ ¬ (200 ≤ 500 ∧ 500 ≤ 299) :=
  ⟨rfl, by omega⟩

/-- Claim C5 (amended): the fetch fails whenever the endpoint is
unreachable (transport error), fails with a decode error exactly when the
response body cannot be parsed as the expected list of records, and never
returns a version list in either case; the HTTP status code is not
inspected, so a non-success response whose body still decodes is accepted. -/
theorem claim_C5_fetch_errors :
    ∀ st : Nat, ∀ body : Option Json,
      fetchTaskVersions HttpResult.transportError = FetchOutcome.fetchErr ∧
      (fetchTaskVersions (HttpResult.response st body) = FetchOutcome.decodeErr ↔
        body.bind decodeReleases = none) ∧
      (∀ tags, body.bind decodeReleases = some tags →
        fetchTaskVersions (HttpResult.response st body)
          = FetchOutcome.ok (taskVersionsOfTags tags)) := by
  intro st body
  refine ⟨rfl, ?_, ?_⟩
  · cases body with
    | none => simp [fetchTaskVersions]
    | some j =>
      cases hd : decodeReleases j with
      | none => simp [fetchTaskVersions, hd]
      | some tags => simp [fetchTaskVersions, hd]
  · intro tags htags
    cases body with
    | none => cases htags
    | some j =>
      rw [Option.bind] at htags
      simp [fetchTaskVersions, htags]

/-- Witness for claim C5: a transport error fails the fetch, and a status
404 response whose body is a bare JSON number fails with a decode error. -/
theorem claim_C5_fetch_errors_witness :
    fetchTaskVersions HttpResult.transportError = FetchOutcome.fetchErr ∧
      fetchTaskVersions (HttpResult.response 404 (some (Json.num 3)))
        = FetchOutcome.decodeErr :=
  ⟨(claim_C5_fetch_errors 404 (some (Json.num 3))).1,
    (claim_C5_fetch_errors 404 (some (Json.num 3))).2.1.mpr rfl⟩


def versionOpenTag : List Char := "<Version>".data

def versionCloseTag : List Char := "</Version>".data

def pgOpenTag : List Char := "<PropertyGroup>".data

def pgErrMsg : List Char := "no <PropertyGroup> found in csproj file".data

def indentLit : List Char := "\n    ".data

/-- The replacement text inserted after a container tag and its trailing
whitespace: the expansion of the Go template newline, four spaces, then
the version element. -/
def insertedVersionTag (version : List Char) : List Char :=
  indentLit ++ versionOpenTag ++ version ++ versionCloseTag

/-- The character class of the Go regexp whitespace escape: tab, newline,
form feed, carriage return and space. -/
def isGoSpace (c : Char) : Bool :=
  c = ' ' || c = Char.ofNat 9 || c = Char.ofNat 10 || c = Char.ofNat 12 || c = Char.ofNat 13

/-- Scan for the closing literal of the version pattern.  The non-greedy
middle of the Go pattern is built from the dot class, which does not match
a newline, so the scan fails when a newline is reached first, and the
middle ends at the first occurrence of the closing literal. -/
def scanVersionClose : List Char → Option (List Char × List Char)
  | [] => none
  | c :: cs =>
    if versionCloseTag.isPrefixOf (c :: cs) then
      some ([], (c :: cs).drop versionCloseTag.length)
    else if c = Char.ofNat 10 then none
    else
      match scanVersionClose cs with
      | some (m, r) => some (c :: m, r)
      | none => none

/-- Leftmost-first match of the fixed version pattern used by setVersion:
returns the text before the match, the matched middle, and the text after
the closing literal, or none when no match starts anywhere. -/
def findVersionMatch : List Char → Option (List Char × List Char × List Char)
  | [] => none
  | c :: cs =>
    if versionOpenTag.isPrefixOf (c :: cs) then
      match scanVersionClose ((c :: cs).drop versionOpenTag.length) with
      | some (m, r) => some ([], m, r)
      | none =>
        match findVersionMatch cs with
        | some (p, m, r) => some (c :: p, m, r)
        | none => none
    else
      match findVersionMatch cs with
      | some (p, m, r) => some (c :: p, m, r)
      | none => none

/-- Fuel-bounded model of Regexp.ReplaceAllString for the version
pattern: replace the leftmost match and continue after it.  Every match
consumes at least the two tag literals, so the text length bounds the
number of replacements and the fuel never runs out when started at
length plus one. -/
def replaceVersionAux : Nat → List Char → List Char → List Char
  | 0, text, _ => text
  | fuel + 1, text, version =>
    match findVersionMatch text with
    | none => text
    | some (p, _, r) =>
      p ++ versionOpenTag ++ version ++ versionCloseTag ++ replaceVersionAux fuel r version

def replaceVersionAll (text version : List Char) : List Char :=
  replaceVersionAux (text.length + 1) text version

/-- Leftmost-first match of the container pattern used by setVersion: the
capture group is the container literal followed by the greedy run of
whitespace; returns the text before the match, the whitespace run, and
the rest. -/
def findPGMatch : List Char → Option (List Char × List Char × List Char)
  | [] => none
  | c :: cs =>
    if pgOpenTag.isPrefixOf (c :: cs) then
      some ([], ((c :: cs).drop pgOpenTag.length).takeWhile isGoSpace,
        ((c :: cs).drop pgOpenTag.length).dropWhile isGoSpace)
    else
      match findPGMatch cs with
      | some (p, w, r) => some (c :: p, w, r)
      | none => none

/-- Fuel-bounded model of Regexp.ReplaceAllString for the container
pattern with the insertion template. -/
def replacePGAux : Nat → List Char → List Char → List Char
  | 0, text, _ => text
  | fuel + 1, text, version =>
    match findPGMatch text with
    | none => text
    | some (p, w, r) =>
      p ++ pgOpenTag ++ w ++ insertedVersionTag version ++ replacePGAux fuel r version

def replacePGAll (text version : List Char) : List Char :=
  replacePGAux (text.length + 1) text version

/-- Translation of setVersion (main.go lines 385-415) on the file
content: when the version pattern matches, every match is replaced; when
it does not but the container pattern matches, the version line is
inserted after every container tag and its trailing whitespace; otherwise
the error is returned and nothing is written back. -/
def setVersionText (text version : List Char) : Except (List Char) (List Char) :=
  if (findVersionMatch text).isSome then Except.ok (replaceVersionAll text version)
  else if (findPGMatch text).isSome then Except.ok (replacePGAll text version)
  else Except.error pgErrMsg

theorem exists_of_isPrefixOf :
    ∀ l s : List Char, l.isPrefixOf s = true → ∃ t, s = l ++ t := by
  intro l
  induction l with
  | nil => exact fun s _ => ⟨s, rfl⟩
  | cons a as ih =>
    intro s h
    cases s with
    | nil => cases h
    | cons b bs =>
      simp only [List.isPrefixOf, Bool.and_eq_true, beq_iff_eq] at h
      obtain ⟨hab, h2⟩ := h
      obtain ⟨t, ht⟩ := ih bs h2
      exact ⟨t, by rw [ht, hab]; rfl⟩

theorem scanVersionClose_sound :
    ∀ t m r : List Char, scanVersionClose t = some (m, r) →
      t = m ++ versionCloseTag ++ r := by
  intro t
  induction t with
  | nil => intro m r h; cases h
  | cons c cs ih =>
    intro m r h
    simp only [scanVersionClose] at h
    split_ifs at h with h1 h2
    · obtain ⟨u, hu⟩ := exists_of_isPrefixOf versionCloseTag (c :: cs) h1
      rw [hu, List.drop_left] at h
      simp only [Option.some.injEq, Prod.mk.injEq] at h
      obtain ⟨hm, hr⟩ := h
      rw [hu, ← hm, ← hr]
      rfl
    · cases hsc : scanVersionClose cs with
      | none =>
        rw [hsc] at h
        cases h
      | some mr =>
        obtain ⟨m0, r0⟩ := mr
        rw [hsc] at h
        simp only [Option.some.injEq, Prod.mk.injEq] at h
        obtain ⟨hm, hr⟩ := h
        have hcs := ih m0 r0 hsc
        rw [← hm, ← hr, hcs]
        simp

theorem findVersionMatch_sound :
    ∀ t p m r : List Char, findVersionMatch t = some (p, m, r) →
      t = p ++ versionOpenTag ++ m ++ versionCloseTag ++ r := by
  intro t
  induction t with
  | nil => intro p m r h; cases h
  | cons c cs ih =>
    intro p m r h
    simp only [findVersionMatch] at h
    split_ifs at h with h1
    · cases hsc : scanVersionClose ((c :: cs).drop versionOpenTag.length) with
      | some mr =>
        obtain ⟨m0, r0⟩ := mr
        rw [hsc] at h
        simp only [Option.some.injEq, Prod.mk.injEq] at h
        obtain ⟨hp, hm, hr⟩ := h
        obtain ⟨u, hu⟩ := exists_of_isPrefixOf versionOpenTag (c :: cs) h1
        have hdrop : (c :: cs).drop versionOpenTag.length = u := by
          rw [hu, List.drop_left]
        rw [hdrop] at hsc
        have hus := scanVersionClose_sound u m0 r0 hsc
        rw [← hp, ← hm, ← hr, hu, hus]
        simp
      | none =>
        rw [hsc] at h
        cases hf : findVersionMatch cs with
        | none =>
          rw [hf] at h
          cases h
        | some pmr =>
          obtain ⟨p0, m0, r0⟩ := pmr
          rw [hf] at h
          simp only [Option.some.injEq, Prod.mk.injEq] at h
          obtain ⟨hp, hm, hr⟩ := h
          have hcs := ih p0 m0 r0 hf
          rw [← hp, ← hm, ← hr, hcs]
          simp
    · cases hf : findVersionMatch cs with
      | none =>
        rw [hf] at h
        cases h
      | some pmr =>
        obtain ⟨p0, m0, r0⟩ := pmr
        rw [hf] at h
        simp only [Option.some.injEq, Prod.mk.injEq] at h
        obtain ⟨hp, hm, hr⟩ := h
        have hcs := ih p0 m0 r0 hf
        rw [← hp, ← hm, ← hr, hcs]
        simp

theorem findVersionMatch_length {t p m r : List Char}
    (h : findVersionMatch t = some (p, m, r)) : r.length + 19 ≤ t.length := by
  have hs := findVersionMatch_sound t p m r h
  have hlen : t.length
      = p.length + (versionOpenTag.length + (m.length + (versionCloseTag.length + r.length))) := by
    rw [hs]
    simp
  have hov : versionOpenTag.length = 9 := rfl
  have hcv : versionCloseTag.length = 10 := rfl
  omega

theorem replaceVersionAux_fuel :
    ∀ f1 : Nat, ∀ text version : List Char, ∀ f2 : Nat,
      text.length < f1 → text.length < f2 →
      replaceVersionAux f1 text version = replaceVersionAux f2 text version := by
  intro f1
  induction f1 with
  | zero =>
    intro text version f2 h1 h2
    omega
  | succ f ih =>
    intro text version f2 h1 h2
    cases f2 with
    | zero => omega
    | succ g =>
      simp only [replaceVersionAux]
      split
      · rfl
      · rename_i p0 m0 r0 heq
        have hlen := findVersionMatch_length heq
        rw [ih r0 version g (by omega) (by omega)]

theorem replaceVersionAll_none {text version : List Char}
    (h : findVersionMatch text = none) : replaceVersionAll text version = text := by
  unfold replaceVersionAll
  simp only [replaceVersionAux, h]

theorem replaceVersionAll_some {text version p m r : List Char}
    (h : findVersionMatch text = some (p, m, r)) :
    replaceVersionAll text version
      = p ++ versionOpenTag ++ version ++ versionCloseTag ++ replaceVersionAll r version := by
  have hlen := findVersionMatch_length h
  unfold replaceVersionAll
  simp only [replaceVersionAux]
  split
  · rename_i hn
    rw [hn] at h
    cases h
  · rename_i p0 m0 r0 heq
    have hpr : some (p0, m0, r0) = some (p, m, r) := heq.symm.trans h
    simp only [Option.some.injEq, Prod.mk.injEq] at hpr
    obtain ⟨hp, hm, hr⟩ := hpr
    rw [hp, hr]
    rw [replaceVersionAux_fuel text.length r version (r.length + 1) (by omega) (by omega)]
    rfl

theorem findPGMatch_sound :
    ∀ t p w r : List Char, findPGMatch t = some (p, w, r) →
      t = p ++ pgOpenTag ++ w ++ r ∧ w.all isGoSpace = true := by
  intro t
  induction t with
  | nil => intro p w r h; cases h
  | cons c cs ih =>
    intro p w r h
    simp only [findPGMatch] at h
    split_ifs at h with h1
    · simp only [Option.some.injEq, Prod.mk.injEq] at h
      obtain ⟨hp, hw, hr⟩ := h
      obtain ⟨u, hu⟩ := exists_of_isPrefixOf pgOpenTag (c :: cs) h1
      have hdrop : (c :: cs).drop pgOpenTag.length = u := by
        rw [hu, List.drop_left]
      rw [hdrop] at hw hr
      constructor
      · rw [← hp, ← hw, ← hr, hu]
        simp [List.takeWhile_append_dropWhile]
      · rw [← hw]
        exact List.all_takeWhile
    · cases hf : findPGMatch cs with
      | none =>
        rw [hf] at h
        cases h
      | some pwr =>
        obtain ⟨p0, w0, r0⟩ := pwr
        rw [hf] at h
        simp only [Option.some.injEq, Prod.mk.injEq] at h
        obtain ⟨hp, hw, hr⟩ := h
        obtain ⟨hcs, hall⟩ := ih p0 w0 r0 hf
        constructor
        · rw [← hp, ← hw, ← hr, hcs]
          simp
        · rw [← hw]
          exact hall

theorem findPGMatch_length {t p w r : List Char}
    (h : findPGMatch t = some (p, w, r)) : r.length + 15 ≤ t.length := by
  have hs := (findPGMatch_sound t p w r h).1
  have hlen : t.length = p.length + (pgOpenTag.length + (w.length + r.length)) := by
    rw [hs]
    simp
  have hpg : pgOpenTag.length = 15 := rfl
  omega

theorem replacePGAux_fuel :
    ∀ f1 : Nat, ∀ text version : List Char, ∀ f2 : Nat,
      text.length < f1 → text.length < f2 →
      replacePGAux f1 text version = replacePGAux f2 text version := by
  intro f1
  induction f1 with
  | zero =>
    intro text version f2 h1 h2
    omega
  | succ f ih =>
    intro text version f2 h1 h2
    cases f2 with
    | zero => omega
    | succ g =>
      simp only [replacePGAux]
      split
      · rfl
      · rename_i p0 w0 r0 heq
        have hlen := findPGMatch_length heq
        rw [ih r0 version g (by omega) (by omega)]

theorem replacePGAll_none {text version : List Char}
    (h : findPGMatch text = none) : replacePGAll text version = text := by
  unfold replacePGAll
  simp only [replacePGAux, h]

theorem replacePGAll_some {text version p w r : List Char}
    (h : findPGMatch text = some (p, w, r)) :
    replacePGAll text version
      = p ++ pgOpenTag ++ w ++ insertedVersionTag version ++ replacePGAll r version := by
  have hlen := findPGMatch_length h
  unfold replacePGAll
  simp only [replacePGAux]
  split
  · rename_i hn
    rw [hn] at h
    cases h
  · rename_i p0 w0 r0 heq
    have hpr : some (p0, w0, r0) = some (p, w, r) := heq.symm.trans h
    simp only [Option.some.injEq, Prod.mk.injEq] at hpr
    obtain ⟨hp, hw, hr⟩ := hpr
    rw [hp, hw, hr]
    rw [replacePGAux_fuel text.length r version (r.length + 1) (by omega) (by omega)]
    rfl

/-- Claim C2 (amended): for a manifest whose text has exactly one match of
the version pattern, patching replaces exactly that match with the target
version and changes no other content; for a manifest with no version
match and exactly one container match, a new version line is inserted
immediately after the container tag and its trailing whitespace; for a
manifest with neither match, patching fails with the structure error and
no content is produced.  (With several matches every one is rewritten;
that behaviour is covered by the claim C10 theorem.) -/
theorem claim_C2_setVersion :
    ∀ text version : List Char,
      (∀ p m r : List Char, findVersionMatch text = some (p, m, r) →
        findVersionMatch r = none →
        text = p ++ versionOpenTag ++ m ++ versionCloseTag ++ r ∧
        setVersionText text version
          = Except.ok (p ++ versionOpenTag ++ version ++ versionCloseTag ++ r)) ∧
      (∀ p w r : List Char, findVersionMatch text = none →
        findPGMatch text = some (p, w, r) → findPGMatch r = none →
        text = p ++ pgOpenTag ++ w ++ r ∧ w.all isGoSpace = true ∧
        setVersionText text version
          = Except.ok (p ++ pgOpenTag ++ w ++ insertedVersionTag version ++ r)) ∧
      (findVersionMatch text = none → findPGMatch text = none →
        setVersionText text version = Except.error pgErrMsg) := by
  intro text version
  refine ⟨?_, ?_, ?_⟩
  · intro p m r hf hnone
    refine ⟨findVersionMatch_sound text p m r hf, ?_⟩
    unfold setVersionText
    rw [if_pos (by rw [hf]; rfl)]
    rw [replaceVersionAll_some hf, replaceVersionAll_none hnone]
  · intro p w r hvnone hpg hnone
    obtain ⟨hdec, hall⟩ := findPGMatch_sound text p w r hpg
    refine ⟨hdec, hall, ?_⟩
    unfold setVersionText
    rw [if_neg (by rw [hvnone]; simp), if_pos (by rw [hpg]; rfl)]
    rw [replacePGAll_some hpg, replacePGAll_none hnone]
  · intro hvnone hpgnone
    unfold setVersionText
    rw [if_neg (by rw [hvnone]; simp), if_neg (by rw [hpgnone]; simp)]

/-- Claim C2 counterexample: a manifest containing two version tags is
rewritten so that the target tag occurs twice, not exactly once, so the
claim as stated fails on manifests with more than one version tag. -/
theorem claim_C2_counterexample :
    setVersionText ( "<Version>1.0.0</Version><Version>1.1.0</Version>" ).data
        ( "2.0.0" ).data
      = Except.ok (( "<Version>2.0.0</Version><Version>2.0.0</Version>" ).data) := rfl

def exManifest1 : List Char := "<Project><PropertyGroup><Version>1.0.0</Version></PropertyGroup></Project>".data

def exM1p : List Char := "<Project><PropertyGroup>".data

def exM1m : List Char := "1.0.0".data

def exM1r : List Char := "</PropertyGroup></Project>".data

def exManifest2 : List Char :=
  "<Project><PropertyGroup>\n    <TargetFramework>net8.0</TargetFramework></PropertyGroup></Project>".data

def exM2p : List Char := "<Project>".data

def exM2w : List Char := "\n    ".data

def exM2r : List Char := "<TargetFramework>net8.0</TargetFramework></PropertyGroup></Project>".data

def exManifest3 : List Char := "<Project><ItemGroup></ItemGroup></Project>".data

def exNewVersion : List Char := "2.0.0".data

/-- Witness for claim C2 on the three spec example manifests: one existing
version tag is replaced in place, a container-only manifest gets the new
version line inserted, and a manifest with neither tag fails with the
structure error. -/
theorem claim_C2_setVersion_witness :
    (exManifest1 = exM1p ++ versionOpenTag ++ exM1m ++ versionCloseTag ++ exM1r ∧
      setVersionText exManifest1 exNewVersion
        = Except.ok (exM1p ++ versionOpenTag ++ exNewVersion ++ versionCloseTag ++ exM1r)) ∧
    (exManifest2 = exM2p ++ pgOpenTag ++ exM2w ++ exM2r ∧ exM2w.all isGoSpace = true ∧
      setVersionText exManifest2 exNewVersion
        = Except.ok (exM2p ++ pgOpenTag ++ exM2w ++ insertedVersionTag exNewVersion ++ exM2r)) ∧
    setVersionText exManifest3 exNewVersion = Except.error pgErrMsg :=
  ⟨(claim_C2_setVersion exManifest1 exNewVersion).1 exM1p exM1m exM1r (by decide) (by decide),
    (claim_C2_setVersion exManifest2 exNewVersion).2.1 exM2p exM2w exM2r
      (by decide) (by decide) (by decide),
    (claim_C2_setVersion exManifest3 exNewVersion).2.2 (by decide) (by decide)⟩


/-- A node of the modelled file system: a directory with its permission
bits, or a regular file with permission bits and content bytes. -/
inductive FsNode where
  | dir : Nat → FsNode
  | file : Nat → List Nat → FsNode
deriving DecidableEq

/-- A path relative to the extraction destination, as a list of
components.  filepath.Join of the destination and an archive entry name
is modelled as interpreting the entry name as this component list; the
archive names at stake are clean relative paths. -/
abbrev FsPath := List (List Char)

/-- The file system state, newest binding first; a lookup returns the
most recent binding of a path. -/
abbrev Fs := List (FsPath × FsNode)

def fsLookup (fs : Fs) (p : FsPath) : Option FsNode :=
  match fs with
  | [] => none
  | (q, n) :: rest => if q = p then some n else fsLookup rest p

/-- All nonempty prefixes of a path, shortest first, ending with the path
itself: the directories os.MkdirAll visits. -/
def prefixesOf (p : FsPath) : List FsPath :=
  (List.range p.length).map (fun i => p.take (i + 1))

/-- The creation loop of os.MkdirAll with errors discarded, as in
extractZip, where the MkdirAll return values are ignored: missing
directories are created with the given permission, an existing directory
is kept, and a file blocking the chain stops the loop silently. -/
def mkdirChainL : List FsPath → Nat → Fs → Fs
  | [], _, fs => fs
  | q :: qs, perm, fs =>
    match fsLookup fs q with
    | some (FsNode.dir _) => mkdirChainL qs perm fs
    | some (FsNode.file _ _) => fs
    | none => mkdirChainL qs perm ((q, FsNode.dir perm) :: fs)

def mkdirAllLenient (p : FsPath) (perm : Nat) (fs : Fs) : Fs :=
  mkdirChainL (prefixesOf p) perm fs

/-- The creation loop of os.MkdirAll with the error propagated, as in
extractTarGz, where the MkdirAll return values are checked. -/
def mkdirChainE : List FsPath → Nat → Fs → Except Unit Fs
  | [], _, fs => Except.ok fs
  | q :: qs, perm, fs =>
    match fsLookup fs q with
    | some (FsNode.dir _) => mkdirChainE qs perm fs
    | some (FsNode.file _ _) => Except.error ()
    | none => mkdirChainE qs perm ((q, FsNode.dir perm) :: fs)

def mkdirAllE (p : FsPath) (perm : Nat) (fs : Fs) : Except Unit Fs :=
  mkdirChainE (prefixesOf p) perm fs

/-- Whether the parent directory of a path exists (the destination root
itself always exists). -/
def parentExistsDir (fs : Fs) (p : FsPath) : Bool :=
  p.dropLast = [] ||
    (match fsLookup fs p.dropLast with
     | some (FsNode.dir _) => true
     | _ => false)

/-- os.OpenFile with O_WRONLY, O_CREATE and O_TRUNC as used by
extractZip: fails when the parent directory is missing or a directory
occupies the path; an existing file keeps its permission bits and has its
content replaced; a fresh file is created with the given permission. -/
def createTrunc (p : FsPath) (perm : Nat) (content : List Nat) (fs : Fs) : Except Unit Fs :=
  if parentExistsDir fs p = false then Except.error ()
  else
    match fsLookup fs p with
    | some (FsNode.dir _) => Except.error ()
    | some (FsNode.file oldPerm _) => Except.ok ((p, FsNode.file oldPerm content) :: fs)
    | none => Except.ok ((p, FsNode.file perm content) :: fs)

/-- os.OpenFile with O_CREATE and O_RDWR but no O_TRUNC as used by
extractTarGz: as createTrunc, except that the bytes of a longer existing
file beyond the written content survive. -/
def createNoTrunc (p : FsPath) (perm : Nat) (content : List Nat) (fs : Fs) : Except Unit Fs :=
  if parentExistsDir fs p = false then Except.error ()
  else
    match fsLookup fs p with
    | some (FsNode.dir _) => Except.error ()
    | some (FsNode.file oldPerm oldContent) =>
      Except.ok ((p, FsNode.file oldPerm (content ++ oldContent.drop content.length)) :: fs)
    | none => Except.ok ((p, FsNode.file perm content) :: fs)

/-- One entry of a zip archive as seen by extractZip: its slash-split
relative name, whether it is a directory, the mode bits of its FileInfo,
and its content bytes. -/
structure ZipEntry where
  name : FsPath
  isDir : Bool
  mode : Nat
  content : List Nat

/-- The body of the extractZip loop (main.go lines 230-256) for one
entry: a directory entry runs MkdirAll with the mode recorded in the
archive and its error is ignored; a file entry runs MkdirAll on the
parent with permission 755 (error ignored) and then the truncating open,
whose failure aborts. -/
def extractZipEntry (fs : Fs) (f : ZipEntry) : Except Unit Fs :=
  if f.isDir then Except.ok (mkdirAllLenient f.name f.mode fs)
  else createTrunc f.name f.mode f.content (mkdirAllLenient f.name.dropLast 0o755 fs)

/-- Translation of extractZip (main.go lines 221-259) on the entry list;
the initial MkdirAll of the destination itself is the implicit root. -/
def extractZip (entries : List ZipEntry) : Except Unit Fs :=
  List.foldlM extractZipEntry [] entries

inductive TarType where
  | dir : TarType
  | reg : TarType
  | other : TarType
deriving DecidableEq

/-- One entry of a tar archive as seen by extractTarGz: its slash-split
relative name, its type flag, its header mode and its content bytes. -/
structure TarEntry where
  name : FsPath
  typ : TarType
  mode : Nat
  content : List Nat

/-- The body of the extractTarGz loop (main.go lines 276-308) for one
entry: a directory entry runs MkdirAll with the fixed permission 755, a
regular entry runs MkdirAll on the parent with permission 755 and then
the non-truncating open with the header mode, and any other type flag is
skipped silently; every error aborts. -/
def extractTarEntry (fs : Fs) (h : TarEntry) : Except Unit Fs :=
  match h.typ with
  | TarType.dir => mkdirAllE h.name 0o755 fs
  | TarType.reg =>
    match mkdirAllE h.name.dropLast 0o755 fs with
    | Except.error e => Except.error e
    | Except.ok fs1 => createNoTrunc h.name h.mode h.content fs1
  | TarType.other => Except.ok fs

/-- Translation of extractTarGz (main.go lines 261-311) on the entry
list. -/
def extractTarGz (entries : List TarEntry) : Except Unit Fs :=
  List.foldlM extractTarEntry [] entries


theorem exists_of_isPrefixOf_path :
    ∀ l s : FsPath, l.isPrefixOf s = true → ∃ t, s = l ++ t := by
  intro l
  induction l with
  | nil => exact fun s _ => ⟨s, rfl⟩
  | cons a as ih =>
    intro s h
    cases s with
    | nil => cases h
    | cons b bs =>
      simp only [List.isPrefixOf, Bool.and_eq_true, beq_iff_eq] at h
      obtain ⟨hab, h2⟩ := h
      obtain ⟨t, ht⟩ := ih bs h2
      exact ⟨t, by rw [ht, hab]; rfl⟩

theorem isPrefixOf_append_path : ∀ l t : FsPath, l.isPrefixOf (l ++ t) = true := by
  intro l
  induction l with
  | nil => intro t; simp [List.isPrefixOf]
  | cons a as ih =>
    intro t
    simp only [List.cons_append, List.isPrefixOf, Bool.and_eq_true, beq_self_eq_true, true_and]
    exact ih t

theorem mem_prefixesOf_iff {q p : FsPath} :
    q ∈ prefixesOf p ↔ q ≠ [] ∧ ∃ t, p = q ++ t := by
  unfold prefixesOf
  simp only [List.mem_map, List.mem_range]
  constructor
  · rintro ⟨i, hi, rfl⟩
    constructor
    · intro h
      have hl := congrArg List.length h
      simp only [List.length_take, List.length_nil] at hl
      omega
    · exact ⟨p.drop (i + 1), (List.take_append_drop _ _).symm⟩
  · rintro ⟨hne, t, rfl⟩
    have hq1 : 1 ≤ q.length := by
      cases q with
      | nil => exact absurd rfl hne
      | cons a as => simp
    refine ⟨q.length - 1, ?_, ?_⟩
    · simp only [List.length_append]
      omega
    · have hq : q.length - 1 + 1 = q.length := by omega
      rw [hq, List.take_left]

theorem self_mem_prefixesOf {p : FsPath} (h : p ≠ []) : p ∈ prefixesOf p :=
  mem_prefixesOf_iff.mpr ⟨h, [], by simp⟩

theorem isPrefixOf_of_mem_prefixesOf {q p : FsPath} (h : q ∈ prefixesOf p) :
    q.isPrefixOf p = true := by
  obtain ⟨-, t, rfl⟩ := mem_prefixesOf_iff.mp h
  exact isPrefixOf_append_path q t

theorem length_le_of_mem_prefixesOf {q p : FsPath} (h : q ∈ prefixesOf p) :
    q.length ≤ p.length := by
  obtain ⟨-, t, rfl⟩ := mem_prefixesOf_iff.mp h
  simp

theorem prefixesOf_dropLast_subset {p : FsPath} :
    ∀ q ∈ prefixesOf p.dropLast, q ∈ prefixesOf p := by
  intro q hq
  obtain ⟨hne, t, ht⟩ := mem_prefixesOf_iff.mp hq
  refine mem_prefixesOf_iff.mpr ⟨hne, t ++ p.drop (p.length - 1), ?_⟩
  rw [List.dropLast_eq_take] at ht
  calc p = p.take (p.length - 1) ++ p.drop (p.length - 1) := (List.take_append_drop _ _).symm
    _ = (q ++ t) ++ p.drop (p.length - 1) := by rw [← ht]
    _ = q ++ (t ++ p.drop (p.length - 1)) := by rw [List.append_assoc]

theorem fsLookup_cons (q : FsPath) (n : FsNode) (fs : Fs) (p : FsPath) :
    fsLookup ((q, n) :: fs) p = if q = p then some n else fsLookup fs p := rfl

theorem mkdirChainL_pres :
    ∀ qs : List FsPath, ∀ perm : Nat, ∀ fs : Fs, ∀ p : FsPath, ∀ n : FsNode,
      fsLookup fs p = some n → fsLookup (mkdirChainL qs perm fs) p = some n := by
  intro qs
  induction qs with
  | nil => exact fun perm fs p n h => h
  | cons q qs ih =>
    intro perm fs p n h
    simp only [mkdirChainL]
    split
    · exact ih perm fs p n h
    · exact h
    · rename_i heq
      apply ih
      rw [fsLookup_cons]
      split_ifs with hqp
      · rw [hqp] at heq
        rw [heq] at h
        cases h
      · exact h

theorem mkdirChainL_domain :
    ∀ qs : List FsPath, ∀ perm : Nat, ∀ fs : Fs, ∀ p : FsPath,
      fsLookup (mkdirChainL qs perm fs) p ≠ none →
      fsLookup fs p ≠ none ∨ p ∈ qs := by
  intro qs
  induction qs with
  | nil => exact fun perm fs p h => Or.inl h
  | cons q qs ih =>
    intro perm fs p h
    simp only [mkdirChainL] at h
    revert h
    split
    · intro h
      rcases ih perm fs p h with h1 | h2
      · exact Or.inl h1
      · exact Or.inr (List.mem_cons_of_mem q h2)
    · intro h
      exact Or.inl h
    · intro h
      rcases ih perm _ p h with h1 | h2
      · rw [fsLookup_cons] at h1
        split_ifs at h1 with hqp
        · exact Or.inr (hqp ▸ List.mem_cons_self q qs)
        · exact Or.inl h1
      · exact Or.inr (List.mem_cons_of_mem q h2)

theorem mkdirChainL_file :
    ∀ qs : List FsPath, ∀ perm : Nat, ∀ fs : Fs, ∀ p : FsPath, ∀ m : Nat, ∀ c : List Nat,
      fsLookup (mkdirChainL qs perm fs) p = some (FsNode.file m c) →
      fsLookup fs p = some (FsNode.file m c) := by
  intro qs
  induction qs with
  | nil => exact fun perm fs p m c h => h
  | cons q qs ih =>
    intro perm fs p m c h
    simp only [mkdirChainL] at h
    revert h
    split
    · exact fun h => ih perm fs p m c h
    · exact fun h => h
    · intro h
      have h2 := ih perm _ p m c h
      rw [fsLookup_cons] at h2
      split_ifs at h2 with hqp
      · cases h2
      · exact h2

theorem mkdirChainL_creates :
    ∀ qs : List FsPath, ∀ perm : Nat, ∀ fs : Fs, ∀ p : FsPath,
      (∀ q ∈ qs, ∀ m c, fsLookup fs q ≠ some (FsNode.file m c)) →
      p ∈ qs → fsLookup fs p = none →
      fsLookup (mkdirChainL qs perm fs) p = some (FsNode.dir perm) := by
  intro qs
  induction qs with
  | nil =>
    intro perm fs p hnf hp
    cases hp
  | cons q qs ih =>
    intro perm fs p hnf hp hnone
    simp only [mkdirChainL]
    split
    · rename_i m heq
      rcases List.mem_cons.mp hp with h1 | h2
      · rw [h1] at hnone
        rw [hnone] at heq
        cases heq
      · exact ih perm fs p (fun q2 hq2 => hnf q2 (List.mem_cons_of_mem q hq2)) h2 hnone
    · rename_i m c heq
      exact absurd heq (hnf q (List.mem_cons_self q qs) m c)
    · rename_i heq
      by_cases hqp : q = p
      · apply mkdirChainL_pres
        rw [fsLookup_cons, if_pos hqp]
      · rcases List.mem_cons.mp hp with h1 | h2
        · exact absurd h1.symm hqp
        · refine ih perm _ p ?_ h2 ?_
          · intro q2 hq2 m c
            rw [fsLookup_cons]
            split_ifs with hq2p
            · simp
            · exact hnf q2 (List.mem_cons_of_mem q hq2) m c
          · rw [fsLookup_cons, if_neg hqp]
            exact hnone

theorem mkdirChainL_dirs :
    ∀ qs : List FsPath, ∀ perm : Nat, ∀ fs : Fs, ∀ p : FsPath,
      (∀ q ∈ qs, ∀ m c, fsLookup fs q ≠ some (FsNode.file m c)) →
      p ∈ qs →
      ∃ m, fsLookup (mkdirChainL qs perm fs) p = some (FsNode.dir m) := by
  intro qs perm fs p hnf hp
  cases hn : fsLookup fs p with
  | none => exact ⟨perm, mkdirChainL_creates qs perm fs p hnf hp hn⟩
  | some node =>
    cases node with
    | dir m => exact ⟨m, mkdirChainL_pres qs perm fs p _ hn⟩
    | file m c => exact absurd hn (hnf p hp m c)

theorem mkdirChainE_eq :
    ∀ qs : List FsPath, ∀ perm : Nat, ∀ fs : Fs,
      (∀ q ∈ qs, ∀ m c, fsLookup fs q ≠ some (FsNode.file m c)) →
      mkdirChainE qs perm fs = Except.ok (mkdirChainL qs perm fs) := by
  intro qs
  induction qs with
  | nil => exact fun perm fs _ => rfl
  | cons q qs ih =>
    intro perm fs hnf
    simp only [mkdirChainE, mkdirChainL]
    split
    · exact ih perm fs (fun q2 hq2 => hnf q2 (List.mem_cons_of_mem q hq2))
    · rename_i m c heq
      exact absurd heq (hnf q (List.mem_cons_self q qs) m c)
    · rename_i heq
      apply ih perm _
      intro q2 hq2 m c
      rw [fsLookup_cons]
      split_ifs with hqp
      · simp
      · exact hnf q2 (List.mem_cons_of_mem q hq2) m c


/-- The ordered wellformedness of archive entries assumed by the
extraction theorem: a later entry name is never a prefix of (in
particular never equal to) an earlier entry name, and a regular file
entry name is never a prefix of a later entry name.  Ordinary archives,
which list parent directories before their contents and never repeat a
path, satisfy this. -/
def pairwiseWF : List (FsPath × Bool) → Bool
  | [] => true
  | (p, d) :: rest =>
    rest.all (fun e => !(e.1.isPrefixOf p) && (d || !(p.isPrefixOf e.1))) && pairwiseWF rest

def zipWF (entries : List ZipEntry) : Bool :=
  entries.all (fun e => !e.name.isEmpty) &&
    pairwiseWF (entries.map (fun e => (e.name, e.isDir)))

/-- The node that extractZip materializes for an entry: directories carry
the mode recorded in the archive, and so do regular files. -/
def zipNodeOf (e : ZipEntry) : FsNode :=
  if e.isDir then FsNode.dir e.mode else FsNode.file e.mode e.content

theorem pairwiseWF_cons {p : FsPath} {d : Bool} {rest : List (FsPath × Bool)} :
    pairwiseWF ((p, d) :: rest) = true ↔
      (∀ e ∈ rest, e.1.isPrefixOf p = false ∧ (d = true ∨ p.isPrefixOf e.1 = false)) ∧
        pairwiseWF rest = true := by
  simp [pairwiseWF, List.all_eq_true, Bool.and_eq_true, Bool.or_eq_true, Bool.not_eq_true']

theorem extractZip_loop :
    ∀ rs : List ZipEntry, ∀ fs0 : Fs,
      (∀ e ∈ rs, e.name ≠ []) →
      pairwiseWF (rs.map (fun e => (e.name, e.isDir))) = true →
      (∀ e ∈ rs, fsLookup fs0 e.name = none) →
      (∀ e ∈ rs, ∀ q ∈ prefixesOf e.name, ∀ m c, fsLookup fs0 q ≠ some (FsNode.file m c)) →
      ∃ fs, List.foldlM extractZipEntry fs0 rs = Except.ok fs ∧
        (∀ e ∈ rs, fsLookup fs e.name = some (zipNodeOf e)) ∧
        (∀ q n, fsLookup fs0 q = some n → fsLookup fs q = some n) := by
  intro rs
  induction rs with
  | nil =>
    intro fs0 _ _ _ _
    exact ⟨fs0, rfl, by simp, fun q n h => h⟩
  | cons e ts ih =>
    intro fs0 hne hwf hA hB
    rw [List.map_cons, pairwiseWF_cons] at hwf
    obtain ⟨hhead, hwfts⟩ := hwf
    have hhead' : ∀ e' ∈ ts,
        e'.name.isPrefixOf e.name = false ∧
          (e.isDir = true ∨ e.name.isPrefixOf e'.name = false) := by
      intro e' he'
      exact hhead (e'.name, e'.isDir) (List.mem_map.mpr ⟨e', he', rfl⟩)
    have hneE : e.name ≠ [] := hne e (List.mem_cons_self e ts)
    have hAe : fsLookup fs0 e.name = none := hA e (List.mem_cons_self e ts)
    have hBe : ∀ q ∈ prefixesOf e.name, ∀ m c, fsLookup fs0 q ≠ some (FsNode.file m c) :=
      hB e (List.mem_cons_self e ts)
    obtain ⟨fs1, hstep, hf1, hpres1, hdom1, hfile1⟩ :
        ∃ fs1, extractZipEntry fs0 e = Except.ok fs1 ∧
          fsLookup fs1 e.name = some (zipNodeOf e) ∧
          (∀ q n, fsLookup fs0 q = some n → fsLookup fs1 q = some n) ∧
          (∀ p, fsLookup fs1 p ≠ none → fsLookup fs0 p ≠ none ∨ p ∈ prefixesOf e.name) ∧
          (∀ p m c, fsLookup fs1 p = some (FsNode.file m c) →
            fsLookup fs0 p = some (FsNode.file m c) ∨ (e.isDir = false ∧ p = e.name)) := by
      by_cases hdir : e.isDir = true
      · refine ⟨mkdirAllLenient e.name e.mode fs0, ?_, ?_, ?_, ?_, ?_⟩
        · simp [extractZipEntry, hdir]
        · have hzn : zipNodeOf e = FsNode.dir e.mode := by simp [zipNodeOf, hdir]
          rw [hzn]
          exact mkdirChainL_creates _ e.mode fs0 e.name hBe (self_mem_prefixesOf hneE) hAe
        · exact fun q n h => mkdirChainL_pres _ e.mode fs0 q n h
        · exact fun p h => mkdirChainL_domain _ e.mode fs0 p h
        · exact fun p m c h => Or.inl (mkdirChainL_file _ e.mode fs0 p m c h)
      · have hdirF : e.isDir = false := Bool.not_eq_true e.isDir ▸ hdir
        have hBparent : ∀ q ∈ prefixesOf e.name.dropLast, ∀ m c,
            fsLookup fs0 q ≠ some (FsNode.file m c) :=
          fun q hq => hBe q (prefixesOf_dropLast_subset q hq)
        have hparent :
            parentExistsDir (mkdirChainL (prefixesOf e.name.dropLast) 0o755 fs0) e.name
              = true := by
          by_cases hpl : e.name.dropLast = []
          · simp [parentExistsDir, hpl]
          · obtain ⟨m, hm⟩ := mkdirChainL_dirs _ 0o755 fs0 e.name.dropLast hBparent
              (self_mem_prefixesOf hpl)
            unfold parentExistsDir
            rw [hm]
            simp
        have hfresh :
            fsLookup (mkdirChainL (prefixesOf e.name.dropLast) 0o755 fs0) e.name = none := by
          cases hl : fsLookup (mkdirChainL (prefixesOf e.name.dropLast) 0o755 fs0) e.name with
          | none => rfl
          | some n =>
            exfalso
            rcases mkdirChainL_domain _ 0o755 fs0 e.name (by rw [hl]; simp) with h1 | h2
            · exact h1 hAe
            · have hlen := length_le_of_mem_prefixesOf h2
              have hdl : e.name.dropLast.length = e.name.length - 1 := by
                simp [List.length_dropLast]
              have hpos : 1 ≤ e.name.length := by
                cases hh : e.name with
                | nil => exact absurd hh hneE
                | cons a as => simp
              omega
        refine ⟨(e.name, FsNode.file e.mode e.content) ::
            mkdirChainL (prefixesOf e.name.dropLast) 0o755 fs0, ?_, ?_, ?_, ?_, ?_⟩
        · simp only [extractZipEntry, hdirF]
          unfold createTrunc mkdirAllLenient
          rw [hparent]
          simp only [Bool.true_eq_false, if_false]
          rw [hfresh]
          simp
        · have hzn : zipNodeOf e = FsNode.file e.mode e.content := by
            simp [zipNodeOf, hdirF]
          rw [hzn, fsLookup_cons, if_pos rfl]
        · intro q n h
          rw [fsLookup_cons]
          split_ifs with hq
          · rw [← hq] at h
            rw [hAe] at h
            cases h
          · exact mkdirChainL_pres _ 0o755 fs0 q n h

        · intro p h
          rw [fsLookup_cons] at h
          split_ifs at h with hq
          · exact Or.inr (hq ▸ self_mem_prefixesOf hneE)
          · rcases mkdirChainL_domain _ 0o755 fs0 p h with h1 | h2
            · exact Or.inl h1
            · exact Or.inr (prefixesOf_dropLast_subset p h2)
        · intro p m c h
          rw [fsLookup_cons] at h
          split_ifs at h with hq
          · exact Or.inr ⟨hdirF, hq.symm⟩
          · exact Or.inl (mkdirChainL_file _ 0o755 fs0 p m c h)
    have hA' : ∀ e' ∈ ts, fsLookup fs1 e'.name = none := by
      intro e' he'
      cases hl : fsLookup fs1 e'.name with
      | none => rfl
      | some n =>
        exfalso
        rcases hdom1 e'.name (by rw [hl]; simp) with h1 | h2
        · exact h1 (hA e' (List.mem_cons_of_mem e he'))
        · have hp := isPrefixOf_of_mem_prefixesOf h2
          rw [(hhead' e' he').1] at hp
          cases hp
    have hB' : ∀ e' ∈ ts, ∀ q ∈ prefixesOf e'.name, ∀ m c,
        fsLookup fs1 q ≠ some (FsNode.file m c) := by
      intro e' he' q hq m c hl
      rcases hfile1 q m c hl with h1 | ⟨hdf, rfl⟩
      · exact hB e' (List.mem_cons_of_mem e he') q hq m c h1
      · have hp := isPrefixOf_of_mem_prefixesOf hq
        rcases (hhead' e' he').2 with hd | hnp
        · rw [hd] at hdf
          cases hdf
        · rw [hp] at hnp
          cases hnp
    obtain ⟨fs2, hfold, hlook, hpres2⟩ :=
      ih fs1 (fun e' he' => hne e' (List.mem_cons_of_mem e he')) hwfts hA' hB'
    refine ⟨fs2, ?_, ?_, ?_⟩
    · rw [List.foldlM_cons, hstep]
      exact hfold
    · intro e' he'
      rcases List.mem_cons.mp he' with rfl | h2
      · exact hpres2 e'.name _ hf1
      · exact hlook e' h2
    · exact fun q n h => hpres2 q n (hpres1 q n h)


def tarFlagOf : TarType → Bool
  | TarType.reg => false
  | _ => true

def tarWF (entries : List TarEntry) : Bool :=
  entries.all (fun e => !e.name.isEmpty) &&
    pairwiseWF (entries.map (fun e => (e.name, tarFlagOf e.typ)))

/-- The node that extractTarGz materializes for an entry: directory
entries get the fixed permission 755, regular entries keep the header
mode and content, all other type flags produce nothing. -/
def tarNodeOf (e : TarEntry) : Option FsNode :=
  match e.typ with
  | TarType.dir => some (FsNode.dir 0o755)
  | TarType.reg => some (FsNode.file e.mode e.content)
  | TarType.other => none

theorem extractTarGz_loop :
    ∀ rs : List TarEntry, ∀ fs0 : Fs,
      (∀ e ∈ rs, e.name ≠ []) →
      pairwiseWF (rs.map (fun e => (e.name, tarFlagOf e.typ))) = true →
      (∀ e ∈ rs, fsLookup fs0 e.name = none) →
      (∀ e ∈ rs, ∀ q ∈ prefixesOf e.name, ∀ m c, fsLookup fs0 q ≠ some (FsNode.file m c)) →
      ∃ fs, List.foldlM extractTarEntry fs0 rs = Except.ok fs ∧
        (∀ e ∈ rs, ∀ n, tarNodeOf e = some n → fsLookup fs e.name = some n) ∧
        (∀ q n, fsLookup fs0 q = some n → fsLookup fs q = some n) := by
  intro rs
  induction rs with
  | nil =>
    intro fs0 _ _ _ _
    exact ⟨fs0, rfl, by simp, fun q n h => h⟩
  | cons e ts ih =>
    intro fs0 hne hwf hA hB
    rw [List.map_cons, pairwiseWF_cons] at hwf
    obtain ⟨hhead, hwfts⟩ := hwf
    have hhead' : ∀ e' ∈ ts,
        e'.name.isPrefixOf e.name = false ∧
          (tarFlagOf e.typ = true ∨ e.name.isPrefixOf e'.name = false) := by
      intro e' he'
      exact hhead (e'.name, tarFlagOf e'.typ) (List.mem_map.mpr ⟨e', he', rfl⟩)
    have hneE : e.name ≠ [] := hne e (List.mem_cons_self e ts)
    have hAe : fsLookup fs0 e.name = none := hA e (List.mem_cons_self e ts)
    have hBe : ∀ q ∈ prefixesOf e.name, ∀ m c, fsLookup fs0 q ≠ some (FsNode.file m c) :=
      hB e (List.mem_cons_self e ts)
    obtain ⟨fs1, hstep, hf1, hpres1, hdom1, hfile1⟩ :
        ∃ fs1, extractTarEntry fs0 e = Except.ok fs1 ∧
          (∀ n, tarNodeOf e = some n → fsLookup fs1 e.name = some n) ∧
          (∀ q n, fsLookup fs0 q = some n → fsLookup fs1 q = some n) ∧
          (∀ p, fsLookup fs1 p ≠ none → fsLookup fs0 p ≠ none ∨ p ∈ prefixesOf e.name) ∧
          (∀ p m c, fsLookup fs1 p = some (FsNode.file m c) →
            fsLookup fs0 p = some (FsNode.file m c) ∨
              (tarFlagOf e.typ = false ∧ p = e.name)) := by
      cases htyp : e.typ with
      | dir =>
        refine ⟨mkdirChainL (prefixesOf e.name) 0o755 fs0, ?_, ?_, ?_, ?_, ?_⟩
        · simp only [extractTarEntry, htyp]
          exact mkdirChainE_eq _ 0o755 fs0 hBe
        · intro n hn
          simp only [tarNodeOf, htyp, Option.some.injEq] at hn
          rw [← hn]
          exact mkdirChainL_creates _ 0o755 fs0 e.name hBe (self_mem_prefixesOf hneE) hAe
        · exact fun q n h => mkdirChainL_pres _ 0o755 fs0 q n h
        · exact fun p h => mkdirChainL_domain _ 0o755 fs0 p h
        · exact fun p m c h => Or.inl (mkdirChainL_file _ 0o755 fs0 p m c h)
      | reg =>
        have hBparent : ∀ q ∈ prefixesOf e.name.dropLast, ∀ m c,
            fsLookup fs0 q ≠ some (FsNode.file m c) :=
          fun q hq => hBe q (prefixesOf_dropLast_subset q hq)
        have hparent :
            parentExistsDir (mkdirChainL (prefixesOf e.name.dropLast) 0o755 fs0) e.name
              = true := by
          by_cases hpl : e.name.dropLast = []
          · simp [parentExistsDir, hpl]
          · obtain ⟨m, hm⟩ := mkdirChainL_dirs _ 0o755 fs0 e.name.dropLast hBparent
              (self_mem_prefixesOf hpl)
            unfold parentExistsDir
            rw [hm]
            simp
        have hfresh :
            fsLookup (mkdirChainL (prefixesOf e.name.dropLast) 0o755 fs0) e.name = none := by
          cases hl : fsLookup (mkdirChainL (prefixesOf e.name.dropLast) 0o755 fs0) e.name with
          | none => rfl
          | some n =>
            exfalso
            rcases mkdirChainL_domain _ 0o755 fs0 e.name (by rw [hl]; simp) with h1 | h2
            · exact h1 hAe
            · have hlen := length_le_of_mem_prefixesOf h2
              have hdl : e.name.dropLast.length = e.name.length - 1 := by
                simp [List.length_dropLast]
              have hpos : 1 ≤ e.name.length := by
                cases hh : e.name with
                | nil => exact absurd hh hneE
                | cons a as => simp
              omega
        refine ⟨(e.name, FsNode.file e.mode e.content) ::
            mkdirChainL (prefixesOf e.name.dropLast) 0o755 fs0, ?_, ?_, ?_, ?_, ?_⟩
        · simp only [extractTarEntry, htyp]
          rw [show mkdirAllE e.name.dropLast 0o755 fs0
              = Except.ok (mkdirChainL (prefixesOf e.name.dropLast) 0o755 fs0) from
            mkdirChainE_eq _ 0o755 fs0 hBparent]
          show createNoTrunc e.name e.mode e.content
              (mkdirChainL (prefixesOf e.name.dropLast) 0o755 fs0)
            = Except.ok ((e.name, FsNode.file e.mode e.content) ::
                mkdirChainL (prefixesOf e.name.dropLast) 0o755 fs0)
          unfold createNoTrunc
          rw [hparent]
          simp only [Bool.true_eq_false, if_false]
          rw [hfresh]
        · intro n hn
          simp only [tarNodeOf, htyp, Option.some.injEq] at hn
          rw [← hn, fsLookup_cons, if_pos rfl]
        · intro q n h
          rw [fsLookup_cons]
          split_ifs with hq
          · rw [← hq] at h
            rw [hAe] at h
            cases h
          · exact mkdirChainL_pres _ 0o755 fs0 q n h
        · intro p h
          rw [fsLookup_cons] at h
          split_ifs at h with hq
          · exact Or.inr (hq ▸ self_mem_prefixesOf hneE)
          · rcases mkdirChainL_domain _ 0o755 fs0 p h with h1 | h2
            · exact Or.inl h1
            · exact Or.inr (prefixesOf_dropLast_subset p h2)
        · intro p m c h
          rw [fsLookup_cons] at h
          split_ifs at h with hq
          · refine Or.inr ⟨?_, hq.symm⟩
            simp [tarFlagOf, htyp]
          · exact Or.inl (mkdirChainL_file _ 0o755 fs0 p m c h)
      | other =>
        refine ⟨fs0, ?_, ?_, fun q n h => h, fun p h => Or.inl h, fun p m c h => Or.inl h⟩
        · simp only [extractTarEntry, htyp]
        · intro n hn
          simp only [tarNodeOf, htyp] at hn
          cases hn
    have hA' : ∀ e' ∈ ts, fsLookup fs1 e'.name = none := by
      intro e' he'
      cases hl : fsLookup fs1 e'.name with
      | none => rfl
      | some n =>
        exfalso
        rcases hdom1 e'.name (by rw [hl]; simp) with h1 | h2
        · exact h1 (hA e' (List.mem_cons_of_mem e he'))
        · have hp := isPrefixOf_of_mem_prefixesOf h2
          rw [(hhead' e' he').1] at hp
          cases hp
    have hB' : ∀ e' ∈ ts, ∀ q ∈ prefixesOf e'.name, ∀ m c,
        fsLookup fs1 q ≠ some (FsNode.file m c) := by
      intro e' he' q hq m c hl
      rcases hfile1 q m c hl with h1 | ⟨hdf, rfl⟩
      · exact hB e' (List.mem_cons_of_mem e he') q hq m c h1
      · have hp := isPrefixOf_of_mem_prefixesOf hq
        rcases (hhead' e' he').2 with hd | hnp
        · rw [hd] at hdf
          cases hdf
        · rw [hp] at hnp
          cases hnp
    obtain ⟨fs2, hfold, hlook, hpres2⟩ :=
      ih fs1 (fun e' he' => hne e' (List.mem_cons_of_mem e he')) hwfts hA' hB'
    refine ⟨fs2, ?_, ?_, ?_⟩
    · rw [List.foldlM_cons, hstep]
      exact hfold
    · intro e' he' n hn
      rcases List.mem_cons.mp he' with rfl | h2
      · exact hpres2 e'.name n (hf1 n hn)
      · exact hlook e' h2 n hn
    · exact fun q n h => hpres2 q n (hpres1 q n h)


/-- Claim C3 counterexample: a zip archive whose single entry is a
directory with archived mode 700 is extracted with the directory created
with mode 700, not a fixed permissive mode, contradicting the claim that
every directory entry gets a fixed mode rather than the archived one. -/
theorem claim_C3_counterexample :
    extractZip [ZipEntry.mk [( "d" ).data] true 0o700 []]
        = Except.ok [([( "d" ).data], FsNode.dir 0o700)] ∧
      fsLookup [([( "d" ).data], FsNode.dir 0o700)] [( "d" ).data] = some (FsNode.dir 0o700) ∧
      (0o700 : Nat) ≠ 0o755 :=
  ⟨rfl, rfl, by decide⟩

/-- Claim C3 (amended): for every wellformed archive, extraction succeeds,
recreates each entry's relative path under the destination, and preserves
the archived mode bits for every regular file; directory entries are
created by the tar.gz extractor with the fixed permissive mode 755, but
by the zip extractor with the mode recorded in the archive. -/
theorem claim_C3_extract :
    (∀ entries : List ZipEntry, zipWF entries = true →
      ∃ fs, extractZip entries = Except.ok fs ∧
        ∀ e ∈ entries, fsLookup fs e.name = some (zipNodeOf e)) ∧
    (∀ entries : List TarEntry, tarWF entries = true →
      ∃ fs, extractTarGz entries = Except.ok fs ∧
        ∀ e ∈ entries, ∀ n, tarNodeOf e = some n → fsLookup fs e.name = some n) := by
  constructor
  · intro entries hwf
    unfold zipWF at hwf
    rw [Bool.and_eq_true] at hwf
    obtain ⟨hne, hpw⟩ := hwf
    have hne' : ∀ e ∈ entries, e.name ≠ [] := by
      intro e he
      have h2 := (List.all_eq_true.mp hne) e he
      simp only [Bool.not_eq_true'] at h2
      intro hcon
      rw [hcon] at h2
      simp at h2
    obtain ⟨fs, h1, h2, -⟩ := extractZip_loop entries [] hne' hpw
      (fun e he => rfl) (by intro e he q hq m c h; simp [fsLookup] at h)
    exact ⟨fs, h1, h2⟩
  · intro entries hwf
    unfold tarWF at hwf
    rw [Bool.and_eq_true] at hwf
    obtain ⟨hne, hpw⟩ := hwf
    have hne' : ∀ e ∈ entries, e.name ≠ [] := by
      intro e he
      have h2 := (List.all_eq_true.mp hne) e he
      simp only [Bool.not_eq_true'] at h2
      intro hcon
      rw [hcon] at h2
      simp at h2
    obtain ⟨fs, h1, h2, -⟩ := extractTarGz_loop entries [] hne' hpw
      (fun e he => rfl) (by intro e he q hq m c h; simp [fsLookup] at h)
    exact ⟨fs, h1, h2⟩

/-- The zip archive of the round-trip example: a directory bin and the
regular file bin/task with mode 755 and the content bytes of task. -/
def exZipArchive : List ZipEntry :=
  [ZipEntry.mk [( "bin" ).data] true 0o755 [],
    ZipEntry.mk [( "bin" ).data, ( "task" ).data] false 0o755 [116, 97, 115, 107]]

/-- The tar.gz archive of the same round-trip example. -/
def exTarArchive : List TarEntry :=
  [TarEntry.mk [( "bin" ).data] TarType.dir 0o700 [],
    TarEntry.mk [( "bin" ).data, ( "task" ).data] TarType.reg 0o755 [116, 97, 115, 107]]

/-- Witness for claim C3 at the round-trip example archives: both
extractors succeed and materialize every entry at its relative path with
the stated node. -/
theorem claim_C3_extract_witness :
    (∃ fs, extractZip exZipArchive = Except.ok fs ∧
      ∀ e ∈ exZipArchive, fsLookup fs e.name = some (zipNodeOf e)) ∧
    (∃ fs, extractTarGz exTarArchive = Except.ok fs ∧
      ∀ e ∈ exTarArchive, ∀ n, tarNodeOf e = some n → fsLookup fs e.name = some n) :=
  ⟨claim_C3_extract.1 exZipArchive (by decide),
    claim_C3_extract.2 exTarArchive (by decide)⟩


/-- All successive leftmost matches of the version pattern, exactly as
Regexp.ReplaceAllString visits them: the list of (preceding text, matched
middle) pairs together with the text after the last match, in which no
further match starts.  Fuel-bounded like the replacement itself. -/
def allVersionMatches : Nat → List Char → List (List Char × List Char) × List Char
  | 0, text => ([], text)
  | fuel + 1, text =>
    match findVersionMatch text with
    | none => ([], text)
    | some (p, m, r) =>
      ((p, m) :: (allVersionMatches fuel r).1, (allVersionMatches fuel r).2)

def allVersionMatchesTop (text : List Char) : List (List Char × List Char) × List Char :=
  allVersionMatches (text.length + 1) text

/-- Rebuild a text from its version-match segments with the original
middles. -/
def buildTags : List (List Char × List Char) → List Char → List Char
  | [], tail => tail
  | (p, m) :: rest, tail =>
    p ++ versionOpenTag ++ m ++ versionCloseTag ++ buildTags rest tail

/-- Rebuild a text from its version-match segments with every middle
replaced by the target version. -/
def buildTagsWith (version : List Char) : List (List Char × List Char) → List Char → List Char
  | [], tail => tail
  | (p, _) :: rest, tail =>
    p ++ versionOpenTag ++ version ++ versionCloseTag ++ buildTagsWith version rest tail

/-- All successive leftmost matches of the container pattern, with the
captured whitespace runs. -/
def allPGMatches : Nat → List Char → List (List Char × List Char) × List Char
  | 0, text => ([], text)
  | fuel + 1, text =>
    match findPGMatch text with
    | none => ([], text)
    | some (p, w, r) =>
      ((p, w) :: (allPGMatches fuel r).1, (allPGMatches fuel r).2)

def allPGMatchesTop (text : List Char) : List (List Char × List Char) × List Char :=
  allPGMatches (text.length + 1) text

/-- Rebuild a text from its container-match segments unchanged. -/
def buildPGs : List (List Char × List Char) → List Char → List Char
  | [], tail => tail
  | (p, w) :: rest, tail => p ++ pgOpenTag ++ w ++ buildPGs rest tail

/-- Rebuild a text from its container-match segments with the new version
line inserted after every container tag and its whitespace run. -/
def buildPGsWith (version : List Char) : List (List Char × List Char) → List Char → List Char
  | [], tail => tail
  | (p, w) :: rest, tail =>
    p ++ pgOpenTag ++ w ++ insertedVersionTag version ++ buildPGsWith version rest tail

theorem allVersionMatches_fuel :
    ∀ f1 : Nat, ∀ text : List Char, ∀ f2 : Nat,
      text.length < f1 → text.length < f2 →
      allVersionMatches f1 text = allVersionMatches f2 text := by
  intro f1
  induction f1 with
  | zero =>
    intro text f2 h1 h2
    omega
  | succ f ih =>
    intro text f2 h1 h2
    cases f2 with
    | zero => omega
    | succ g =>
      simp only [allVersionMatches]
      split
      · rfl
      · rename_i p0 m0 r0 heq
        have hlen := findVersionMatch_length heq
        rw [ih r0 g (by omega) (by omega)]

theorem allVersionMatchesTop_none {text : List Char}
    (h : findVersionMatch text = none) : allVersionMatchesTop text = ([], text) := by
  unfold allVersionMatchesTop
  simp only [allVersionMatches, h]

theorem allVersionMatchesTop_some {text p m r : List Char}
    (h : findVersionMatch text = some (p, m, r)) :
    allVersionMatchesTop text
      = ((p, m) :: (allVersionMatchesTop r).1, (allVersionMatchesTop r).2) := by
  have hlen := findVersionMatch_length h
  unfold allVersionMatchesTop
  simp only [allVersionMatches]
  split
  · rename_i hn
    rw [hn] at h
    cases h
  · rename_i p0 m0 r0 heq
    have hpr : some (p0, m0, r0) = some (p, m, r) := heq.symm.trans h
    simp only [Option.some.injEq, Prod.mk.injEq] at hpr
    obtain ⟨hp, hm, hr⟩ := hpr
    rw [hp, hm, hr]
    rw [allVersionMatches_fuel text.length r (r.length + 1) (by omega) (by omega)]
    rfl

theorem allVersionMatchesTop_build :
    ∀ fuel : Nat, ∀ text : List Char, text.length < fuel →
      text = buildTags (allVersionMatchesTop text).1 (allVersionMatchesTop text).2 ∧
      ∀ version : List Char, replaceVersionAll text version
        = buildTagsWith version (allVersionMatchesTop text).1 (allVersionMatchesTop text).2 := by
  intro fuel
  induction fuel with
  | zero =>
    intro text h
    omega
  | succ f ih =>
    intro text hlen
    cases hf : findVersionMatch text with
    | none =>
      rw [allVersionMatchesTop_none hf]
      exact ⟨rfl, fun version => replaceVersionAll_none hf⟩
    | some pmr =>
      obtain ⟨p, m, r⟩ := pmr
      have hlen2 := findVersionMatch_length hf
      obtain ⟨ih1, ih2⟩ := ih r (by omega)
      rw [allVersionMatchesTop_some hf]
      constructor
      · simp only [buildTags]
        rw [← ih1]
        exact findVersionMatch_sound text p m r hf
      · intro version
        simp only [buildTagsWith]
        rw [← ih2 version]
        exact replaceVersionAll_some hf

theorem allPGMatches_fuel :
    ∀ f1 : Nat, ∀ text : List Char, ∀ f2 : Nat,
      text.length < f1 → text.length < f2 →
      allPGMatches f1 text = allPGMatches f2 text := by
  intro f1
  induction f1 with
  | zero =>
    intro text f2 h1 h2
    omega
  | succ f ih =>
    intro text f2 h1 h2
    cases f2 with
    | zero => omega
    | succ g =>
      simp only [allPGMatches]
      split
      · rfl
      · rename_i p0 w0 r0 heq
        have hlen := findPGMatch_length heq
        rw [ih r0 g (by omega) (by omega)]

theorem allPGMatchesTop_none {text : List Char}
    (h : findPGMatch text = none) : allPGMatchesTop text = ([], text) := by
  unfold allPGMatchesTop
  simp only [allPGMatches, h]

theorem allPGMatchesTop_some {text p w r : List Char}
    (h : findPGMatch text = some (p, w, r)) :
    allPGMatchesTop text
      = ((p, w) :: (allPGMatchesTop r).1, (allPGMatchesTop r).2) := by
  have hlen := findPGMatch_length h
  unfold allPGMatchesTop
  simp only [allPGMatches]
  split
  · rename_i hn
    rw [hn] at h
    cases h
  · rename_i p0 w0 r0 heq
    have hpr : some (p0, w0, r0) = some (p, w, r) := heq.symm.trans h
    simp only [Option.some.injEq, Prod.mk.injEq] at hpr
    obtain ⟨hp, hw, hr⟩ := hpr
    rw [hp, hw, hr]
    rw [allPGMatches_fuel text.length r (r.length + 1) (by omega) (by omega)]
    rfl

theorem allPGMatchesTop_build :
    ∀ fuel : Nat, ∀ text : List Char, text.length < fuel →
      text = buildPGs (allPGMatchesTop text).1 (allPGMatchesTop text).2 ∧
      ∀ version : List Char, replacePGAll text version
        = buildPGsWith version (allPGMatchesTop text).1 (allPGMatchesTop text).2 := by
  intro fuel
  induction fuel with
  | zero =>
    intro text h
    omega
  | succ f ih =>
    intro text hlen
    cases hf : findPGMatch text with
    | none =>
      rw [allPGMatchesTop_none hf]
      exact ⟨rfl, fun version => replacePGAll_none hf⟩
    | some pwr =>
      obtain ⟨p, w, r⟩ := pwr
      have hlen2 := findPGMatch_length hf
      obtain ⟨ih1, ih2⟩ := ih r (by omega)
      rw [allPGMatchesTop_some hf]
      constructor
      · simp only [buildPGs]
        rw [← ih1]
        exact (findPGMatch_sound text p w r hf).1
      · intro version
        simp only [buildPGsWith]
        rw [← ih2 version]
        exact replacePGAll_some hf

/-- Claim C10: when the manifest text contains more than one match of the
version pattern (any count of at least two), patching replaces every one
of them with the target version, not only the first; and when it contains
no version match but more than one container match, a new version line is
inserted after every container tag.  The segment list enumerates every
successive leftmost match, and the final tail contains no further match. -/
theorem claim_C10_setVersion_every :
    ∀ text version : List Char,
      (∀ segs : List (List Char × List Char), ∀ tail : List Char,
        allVersionMatchesTop text = (segs, tail) → 2 ≤ segs.length →
        text = buildTags segs tail ∧
        setVersionText text version = Except.ok (buildTagsWith version segs tail)) ∧
      (∀ segs : List (List Char × List Char), ∀ tail : List Char,
        findVersionMatch text = none →
        allPGMatchesTop text = (segs, tail) → 2 ≤ segs.length →
        text = buildPGs segs tail ∧
        setVersionText text version = Except.ok (buildPGsWith version segs tail)) := by
  intro text version
  constructor
  · intro segs tail h hlen
    have hfind : (findVersionMatch text).isSome = true := by
      cases hf : findVersionMatch text with
      | none =>
        rw [allVersionMatchesTop_none hf] at h
        cases h
        simp at hlen
      | some pmr => rfl
    obtain ⟨hb1, hb2⟩ := allVersionMatchesTop_build (text.length + 1) text (by omega)
    rw [h] at hb1 hb2
    refine ⟨hb1, ?_⟩
    unfold setVersionText
    rw [if_pos hfind]
    rw [hb2 version]
  · intro segs tail hvnone h hlen
    have hfind : (findPGMatch text).isSome = true := by
      cases hf : findPGMatch text with
      | none =>
        rw [allPGMatchesTop_none hf] at h
        cases h
        simp at hlen
      | some pwr => rfl
    obtain ⟨hb1, hb2⟩ := allPGMatchesTop_build (text.length + 1) text (by omega)
    rw [h] at hb1 hb2
    refine ⟨hb1, ?_⟩
    unfold setVersionText
    rw [if_neg (by rw [hvnone]; simp), if_pos hfind]
    rw [hb2 version]

def exThreeTags : List Char :=
  "<a><Version>1</Version><b><Version>2</Version><c><Version>3</Version></a>".data

def exThreeSegs : List (List Char × List Char) :=
  [(( "<a>" ).data, ( "1" ).data), (( "<b>" ).data, ( "2" ).data), (( "<c>" ).data, ( "3" ).data)]

def exThreeTail : List Char := "</a>".data

def exThreePGs : List Char :=
  "<x><PropertyGroup>A<PropertyGroup> B<PropertyGroup></x>".data

def exThreePGSegs : List (List Char × List Char) :=
  [(( "<x>" ).data, []), (( "A" ).data, ( " " ).data), (( "B" ).data, [])]

def exThreePGTail : List Char := "</x>".data

/-- Witness for claim C10 on manifests with three matches: all three
version tags are replaced with the target version, and the version line
is inserted after each of the three container tags. -/
theorem claim_C10_setVersion_every_witness :
    (exThreeTags = buildTags exThreeSegs exThreeTail ∧
      setVersionText exThreeTags exNewVersion
        = Except.ok (buildTagsWith exNewVersion exThreeSegs exThreeTail)) ∧
    (exThreePGs = buildPGs exThreePGSegs exThreePGTail ∧
      setVersionText exThreePGs exNewVersion
        = Except.ok (buildPGsWith exNewVersion exThreePGSegs exThreePGTail)) :=
  ⟨(claim_C10_setVersion_every exThreeTags exNewVersion).1 exThreeSegs exThreeTail
      (by decide) (by decide),
    (claim_C10_setVersion_every exThreePGs exNewVersion).2 exThreePGSegs exThreePGTail
      (by decide) (by decide) (by decide)⟩


end TaskNet
